import Mathlib

/-!
Verification of the Typthon type-representation core: the 4096-bit
`TypeSet` bit-vector (src/cpp/include/typthon/core/types.hpp), the
`TypeLattice` subtype queries (src/cpp/src/core/types.cpp), and the C ABI
bridge (src/typthon-core/runtime/cpp/src/ffi/ffi.cpp), shallowly embedded
in Lean.  Machine words (`uint64_t`) are modelled as `Nat` together with
the well-formedness predicate `Wf` stating every word is below `2 ^ 64`;
bitwise instructions are `Nat.lor`, `Nat.land`, `Nat.xor`, `Nat.shiftLeft`
and `Nat.shiftRight`.  Operations whose C++ counterpart can perform an
out-of-bounds access (raw indexing by an unchecked id, dereference of a
freed handle) return `Option`, with `none` marking the executions on which
the C++ source has no defined behaviour.
-/

namespace Typthon

/-- The `bits_` array of `TypeSet`: 64 machine words of 64 bits each,
`bits_[i]` holding membership bits for ids `64*i .. 64*i+63`
(types.hpp, line 25). -/
def TypeSet := Fin 64 → Nat

/-- Two sets are equal exactly when all 64 words agree, so equality of
sets is decidable. -/
instance : DecidableEq TypeSet := fun a b =>
  decidable_of_iff ((List.finRange 64).all (fun i => a i == b i) = true)
    ⟨fun h => funext fun i =>
       beq_iff_eq.mp (List.all_eq_true.mp h i (List.mem_finRange i)),
     fun h => List.all_eq_true.mpr fun i _ => beq_iff_eq.mpr (congrFun h i)⟩

/-- Every word of the set fits in a `uint64_t`.  This is automatic in the
C++ source, where the array element type is `uint64_t`. -/
def Wf (S : TypeSet) : Prop := ∀ i : Fin 64, S i < 2 ^ 64

/-- The all-ones 64-bit word, used to model bitwise complement `~x` of a
`uint64_t` as `MASK64 ^^^ x`. -/
def MASK64 : Nat := 2 ^ 64 - 1

/-- A fresh `TypeSet()` after the `memset` in its constructor
(types.hpp, line 28): every word is zero. -/
def emptySet : TypeSet := fun _ => 0

/-!  ## The three unions and three intersections of types.hpp

`operator|`, `operator&`, `union_inplace` and `intersect_inplace` each have
an AVX2 path (4 words per 256-bit chunk), a NEON path (2 words per 128-bit
chunk) and a scalar fallback.  A 256-bit register loaded by
`_mm256_load_si256` from `&bits_[4*c]` holds the four consecutive
little-endian words; we model it by `packWords`, and the store back is
modelled by `extract64` of each 64-bit lane.  -/

/-- Little-endian packing of consecutive 64-bit words into one value:
word `j` of the list occupies bit positions `64*j .. 64*j+63`. -/
def packWords : List Nat → Nat
  | [] => 0
  | w :: ws => w ||| (packWords ws) <<< 64

/-- Lane `r` (a 64-bit word) of a packed vector register value. -/
def extract64 (v : Nat) (r : Nat) : Nat := (v >>> (64 * r)) &&& MASK64

/-- The 256-bit value `_mm256_load_si256((__m256i*)&bits_[4*c])` reads:
words `4*c`, `4*c+1`, `4*c+2`, `4*c+3`. -/
def load256 (S : TypeSet) (c : Fin 16) : Nat :=
  packWords [S ⟨4 * c.val, by omega⟩, S ⟨4 * c.val + 1, by omega⟩,
             S ⟨4 * c.val + 2, by omega⟩, S ⟨4 * c.val + 3, by omega⟩]

/-- The 128-bit value `vld1q_u64(&bits_[2*c])` reads: words `2*c`, `2*c+1`. -/
def load128 (S : TypeSet) (c : Fin 32) : Nat :=
  packWords [S ⟨2 * c.val, by omega⟩, S ⟨2 * c.val + 1, by omega⟩]

/-- AVX2 path of `operator|` (types.hpp, lines 47-51): chunk `i / 4` is
loaded from both operands, combined with `_mm256_or_si256`, and lane
`i % 4` of the store determines word `i` of the result. -/
def unionAVX2 (A B : TypeSet) : TypeSet := fun i =>
  extract64 (load256 A ⟨i.val / 4, by omega⟩ ||| load256 B ⟨i.val / 4, by omega⟩) (i.val % 4)

/-- NEON path of `operator|` (types.hpp, lines 54-58), via `vorrq_u64`. -/
def unionNEON (A B : TypeSet) : TypeSet := fun i =>
  extract64 (load128 A ⟨i.val / 2, by omega⟩ ||| load128 B ⟨i.val / 2, by omega⟩) (i.val % 2)

/-- Scalar fallback of `operator|` (types.hpp, lines 61-63). -/
def unionScalar (A B : TypeSet) : TypeSet := fun i => A i ||| B i

/-- AVX2 path of `operator&` (types.hpp, lines 73-77), via `_mm256_and_si256`. -/
def interAVX2 (A B : TypeSet) : TypeSet := fun i =>
  extract64 (load256 A ⟨i.val / 4, by omega⟩ &&& load256 B ⟨i.val / 4, by omega⟩) (i.val % 4)

/-- NEON path of `operator&` (types.hpp, lines 80-84), via `vandq_u64`. -/
def interNEON (A B : TypeSet) : TypeSet := fun i =>
  extract64 (load128 A ⟨i.val / 2, by omega⟩ &&& load128 B ⟨i.val / 2, by omega⟩) (i.val % 2)

/-- Scalar fallback of `operator&` (types.hpp, lines 87-89). -/
def interScalar (A B : TypeSet) : TypeSet := fun i => A i &&& B i

/-- AVX2 path of `union_inplace` (types.hpp, lines 141-145); it stores into
`bits_` of the receiver, so as a function it maps the receiver and the
argument to the updated receiver. -/
def unionInplaceAVX2 (A B : TypeSet) : TypeSet := fun i =>
  extract64 (load256 A ⟨i.val / 4, by omega⟩ ||| load256 B ⟨i.val / 4, by omega⟩) (i.val % 4)

/-- NEON path of `union_inplace` (types.hpp, lines 147-151). -/
def unionInplaceNEON (A B : TypeSet) : TypeSet := fun i =>
  extract64 (load128 A ⟨i.val / 2, by omega⟩ ||| load128 B ⟨i.val / 2, by omega⟩) (i.val % 2)

/-- Scalar fallback of `union_inplace` (types.hpp, lines 153-155). -/
def unionInplaceScalar (A B : TypeSet) : TypeSet := fun i => A i ||| B i

/-- AVX2 path of `intersect_inplace` (types.hpp, lines 162-166). -/
def interInplaceAVX2 (A B : TypeSet) : TypeSet := fun i =>
  extract64 (load256 A ⟨i.val / 4, by omega⟩ &&& load256 B ⟨i.val / 4, by omega⟩) (i.val % 4)

/-- NEON path of `intersect_inplace` (types.hpp, lines 168-172). -/
def interInplaceNEON (A B : TypeSet) : TypeSet := fun i =>
  extract64 (load128 A ⟨i.val / 2, by omega⟩ &&& load128 B ⟨i.val / 2, by omega⟩) (i.val % 2)

/-- Scalar fallback of `intersect_inplace` (types.hpp, lines 174-176). -/
def interInplaceScalar (A B : TypeSet) : TypeSet := fun i => A i &&& B i

/-! ### Pack / extract algebra -/

theorem testBit_of_lt_64 {w k : Nat} (hw : w < 2 ^ 64) (hk : 64 ≤ k) :
    w.testBit k = false := by
  refine Nat.testBit_lt_two_pow (lt_of_lt_of_le hw ?_)
  exact Nat.pow_le_pow_right (by omega) hk

theorem testBit_packWords (ws : List Nat) (hw : ∀ w ∈ ws, w < 2 ^ 64) (m : Nat) :
    (packWords ws).testBit m =
      (match ws.get? (m / 64) with
       | some w => w.testBit (m % 64)
       | none => false) := by
  induction ws generalizing m with
  | nil => simp [packWords]
  | cons w ws ih =>
    have hw0 : w < 2 ^ 64 := hw w (by simp)
    have hws : ∀ x ∈ ws, x < 2 ^ 64 := fun x hx => hw x (by simp [hx])
    rw [packWords, Nat.testBit_lor, Nat.testBit_shiftLeft]
    by_cases hm : m < 64
    · have h1 : m / 64 = 0 := Nat.div_eq_of_lt hm
      have h2 : m % 64 = m := Nat.mod_eq_of_lt hm
      have h3 : decide (m ≥ 64) = false := by simp; omega
      simp [h1, h2, h3]
    · push_neg at hm
      have h0 : w.testBit m = false := testBit_of_lt_64 hw0 hm
      have h3 : decide (m ≥ 64) = true := by simp; omega
      rw [h0, h3, ih hws (m - 64)]
      have hq : (m - 64) / 64 = m / 64 - 1 := by
        have := Nat.div_add_mod m 64
        have h64 : 1 ≤ m / 64 := Nat.le_div_iff_mul_le (by omega) |>.mpr (by omega)
        omega
      have hr : (m - 64) % 64 = m % 64 := by
        conv_rhs => rw [show m = (m - 64) + 1 * 64 by omega]
        rw [Nat.add_mul_mod_self_right]
      have hq1 : 1 ≤ m / 64 := Nat.le_div_iff_mul_le (by omega) |>.mpr (by omega)
      rw [hq, hr]
      have hget : (w :: ws).get? (m / 64) = ws.get? (m / 64 - 1) := by
        conv_lhs => rw [show m / 64 = (m / 64 - 1) + 1 by omega]
        exact List.get?_cons_succ
      rw [hget]
      rcases ws.get? (m / 64 - 1) with _ | x <;> simp

theorem extract64_testBit (v r k : Nat) :
    (extract64 v r).testBit k = (decide (k < 64) && v.testBit (64 * r + k)) := by
  rw [extract64, MASK64, Nat.testBit_land, Nat.testBit_shiftRight,
    Nat.testBit_two_pow_sub_one, Bool.and_comm]

theorem extract64_lor (x y r : Nat) :
    extract64 (x ||| y) r = extract64 x r ||| extract64 y r := by
  refine Nat.eq_of_testBit_eq fun k => ?_
  rw [Nat.testBit_lor, extract64_testBit, extract64_testBit, extract64_testBit,
    Nat.testBit_lor]
  rcases decide (k < 64) <;> simp

theorem extract64_land (x y r : Nat) :
    extract64 (x &&& y) r = extract64 x r &&& extract64 y r := by
  refine Nat.eq_of_testBit_eq fun k => ?_
  rw [Nat.testBit_land, extract64_testBit, extract64_testBit, extract64_testBit,
    Nat.testBit_land]
  rcases decide (k < 64) <;> simp

theorem extract64_packWords (ws : List Nat) (hw : ∀ w ∈ ws, w < 2 ^ 64)
    (j : Nat) (hj : j < ws.length) :
    extract64 (packWords ws) j = ws.get ⟨j, hj⟩ := by
  refine Nat.eq_of_testBit_eq fun k => ?_
  rw [extract64_testBit, testBit_packWords ws hw]
  by_cases hk : k < 64
  · have h1 : (64 * j + k) / 64 = j := by omega
    have h2 : (64 * j + k) % 64 = k := by omega
    rw [h1, h2]
    simp [List.getElem?_eq_getElem hj, hk]
  · push_neg at hk
    have : (ws.get ⟨j, hj⟩).testBit k = false :=
      testBit_of_lt_64 (hw _ (ws.get_mem j hj)) hk
    simp only [List.get_eq_getElem] at this
    simp [this, show ¬ (k < 64) by omega]

theorem extract64_load256 (A : TypeSet) (hA : Wf A) (c : Fin 16) (r : Nat) (hr : r < 4) :
    extract64 (load256 A c) r = A ⟨4 * c.val + r, by omega⟩ := by
  have hws : ∀ w ∈ [A ⟨4 * c.val, by omega⟩, A ⟨4 * c.val + 1, by omega⟩,
      A ⟨4 * c.val + 2, by omega⟩, A ⟨4 * c.val + 3, by omega⟩], w < 2 ^ 64 := by
    simp only [List.mem_cons, List.not_mem_nil, or_false]
    rintro w (rfl | rfl | rfl | rfl) <;> exact hA _
  have h4 : r = 0 ∨ r = 1 ∨ r = 2 ∨ r = 3 := by omega
  rcases h4 with rfl | rfl | rfl | rfl <;>
    exact extract64_packWords _ hws _ (by simp)

theorem extract64_load128 (A : TypeSet) (hA : Wf A) (c : Fin 32) (r : Nat) (hr : r < 2) :
    extract64 (load128 A c) r = A ⟨2 * c.val + r, by omega⟩ := by
  have hws : ∀ w ∈ [A ⟨2 * c.val, by omega⟩, A ⟨2 * c.val + 1, by omega⟩], w < 2 ^ 64 := by
    simp only [List.mem_cons, List.not_mem_nil, or_false]
    rintro w (rfl | rfl) <;> exact hA _
  have h2 : r = 0 ∨ r = 1 := by omega
  rcases h2 with rfl | rfl <;>
    exact extract64_packWords _ hws _ (by simp)

theorem extract64_load256_word (S : TypeSet) (hS : Wf S) (i : Fin 64) :
    extract64 (load256 S ⟨i.val / 4, by omega⟩) (i.val % 4) = S i := by
  rw [extract64_load256 S hS _ _ (by omega)]
  refine congrArg S (Fin.ext ?_)
  show 4 * (i.val / 4) + i.val % 4 = i.val
  omega

theorem extract64_load128_word (S : TypeSet) (hS : Wf S) (i : Fin 64) :
    extract64 (load128 S ⟨i.val / 2, by omega⟩) (i.val % 2) = S i := by
  rw [extract64_load128 S hS _ _ (by omega)]
  refine congrArg S (Fin.ext ?_)
  show 2 * (i.val / 2) + i.val % 2 = i.val
  omega

/-- C1: for well-formed operands (every word a genuine `uint64_t` value),
the AVX2 path (4 words per 256-bit chunk), the NEON path (2 words per
128-bit chunk) and the scalar fallback of `operator|`, `operator&`,
`union_inplace` and `intersect_inplace` all produce the word-wise result
`result[i] = A.bits_[i] OP B.bits_[i]` on every one of the 64 words, so
all code paths are bitwise identical on the full 4096-bit set. -/
theorem simd_paths_agree (A B : TypeSet) (hA : Wf A) (hB : Wf B) :
    (∀ i, unionAVX2 A B i = (A i ||| B i)) ∧
    (∀ i, unionNEON A B i = (A i ||| B i)) ∧
    (∀ i, unionScalar A B i = (A i ||| B i)) ∧
    (∀ i, unionInplaceAVX2 A B i = (A i ||| B i)) ∧
    (∀ i, unionInplaceNEON A B i = (A i ||| B i)) ∧
    (∀ i, unionInplaceScalar A B i = (A i ||| B i)) ∧
    (∀ i, interAVX2 A B i = (A i &&& B i)) ∧
    (∀ i, interNEON A B i = (A i &&& B i)) ∧
    (∀ i, interScalar A B i = (A i &&& B i)) ∧
    (∀ i, interInplaceAVX2 A B i = (A i &&& B i)) ∧
    (∀ i, interInplaceNEON A B i = (A i &&& B i)) ∧
    (∀ i, interInplaceScalar A B i = (A i &&& B i)) := by
  refine ⟨fun i => ?_, fun i => ?_, fun i => rfl, fun i => ?_, fun i => ?_, fun i => rfl,
          fun i => ?_, fun i => ?_, fun i => rfl, fun i => ?_, fun i => ?_, fun i => rfl⟩
  · rw [unionAVX2, extract64_lor, extract64_load256_word A hA i, extract64_load256_word B hB i]
  · rw [unionNEON, extract64_lor, extract64_load128_word A hA i, extract64_load128_word B hB i]
  · rw [unionInplaceAVX2, extract64_lor, extract64_load256_word A hA i,
      extract64_load256_word B hB i]
  · rw [unionInplaceNEON, extract64_lor, extract64_load128_word A hA i,
      extract64_load128_word B hB i]
  · rw [interAVX2, extract64_land, extract64_load256_word A hA i, extract64_load256_word B hB i]
  · rw [interNEON, extract64_land, extract64_load128_word A hA i, extract64_load128_word B hB i]
  · rw [interInplaceAVX2, extract64_land, extract64_load256_word A hA i,
      extract64_load256_word B hB i]
  · rw [interInplaceNEON, extract64_land, extract64_load128_word A hA i,
      extract64_load128_word B hB i]

/-- A small concrete operand used by witnesses: word `i` holds value `i + 3`. -/
def exSetA : TypeSet := fun i => i.val + 3

/-- A second concrete operand: word `i` holds value `2 * i + 1`. -/
def exSetB : TypeSet := fun i => 2 * i.val + 1

/-- Witness for C1 at concrete well-formed operands. -/
theorem simd_paths_agree_witness :
    Wf exSetA ∧ Wf exSetB ∧
      unionAVX2 exSetA exSetB ⟨5, by omega⟩ = (exSetA ⟨5, by omega⟩ ||| exSetB ⟨5, by omega⟩) :=
  ⟨by intro i; simp [exSetA]; omega, by intro i; simp [exSetB]; omega,
   (simd_paths_agree exSetA exSetB (by intro i; simp [exSetA]; omega)
      (by intro i; simp [exSetB]; omega)).1 ⟨5, by omega⟩⟩

/-!  ## insert / contains / remove (types.hpp, lines 30-40)

The C++ bodies index `bits_[id / 64]` with no range check; the access is
inside the 64-word array exactly when `id / 64 < 64`, i.e. `id < 4096`.
An out-of-bounds raw access has no defined behaviour, modelled as `none`.
-/

/-- `insert(id)`: `bits_[id / 64] |= (1ULL << (id % 64))`; `none` when the
write would land outside the array. -/
def TypeSet.insert (S : TypeSet) (id : Nat) : Option TypeSet :=
  if h : id / 64 < 64 then
    some (fun i => if i = (⟨id / 64, h⟩ : Fin 64) then S i ||| (1 <<< (id % 64)) else S i)
  else none

/-- `contains(id)`: the bool conversion of `bits_[id / 64] & (1ULL << (id % 64))`. -/
def TypeSet.contains (S : TypeSet) (id : Nat) : Option Bool :=
  if h : id / 64 < 64 then
    some (decide (S ⟨id / 64, h⟩ &&& (1 <<< (id % 64)) ≠ 0))
  else none

/-- `remove(id)`: `bits_[id / 64] &= ~(1ULL << (id % 64))`, the 64-bit
complement written as `MASK64 ^^^`. -/
def TypeSet.remove (S : TypeSet) (id : Nat) : Option TypeSet :=
  if h : id / 64 < 64 then
    some (fun i => if i = (⟨id / 64, h⟩ : Fin 64) then S i &&& (MASK64 ^^^ (1 <<< (id % 64))) else S i)
  else none

/-- Membership as seen by in-range callers (the value `contains` yields on
every defined execution). -/
def membB (S : TypeSet) (id : Nat) : Bool := (TypeSet.contains S id).getD false

theorem land_two_pow_ne_zero (w k : Nat) :
    decide (w &&& (1 <<< k) ≠ 0) = w.testBit k := by
  rw [Nat.one_shiftLeft, Nat.and_two_pow]
  rcases h : w.testBit k <;> simp [h]

theorem membB_eq_testBit (S : TypeSet) (id : Nat) (h : id < 4096) :
    membB S id = (S ⟨id / 64, by omega⟩).testBit (id % 64) := by
  rw [membB, TypeSet.contains]
  rw [dif_pos (show id / 64 < 64 by omega)]
  rw [Option.getD_some, land_two_pow_ne_zero]

theorem membB_oob (S : TypeSet) (id : Nat) (h : 4096 ≤ id) : membB S id = false := by
  rw [membB, TypeSet.contains, dif_neg (show ¬ id / 64 < 64 by omega), Option.getD_none]

/-- C4 (the failing behaviour, evaluated): for any id at or above the 4096
universe bound, `insert`, `remove` and `contains` have no defined result at
all — the unchecked access `bits_[id / 64]` leaves the 64-word array and
the functions produce no `InvalidTypeId` report (the C++ signatures have no
error channel); below the bound all three succeed. -/
theorem typeset_ops_unchecked (S : TypeSet) (id : Nat) :
    (4096 ≤ id →
      TypeSet.insert S id = none ∧ TypeSet.remove S id = none ∧
        TypeSet.contains S id = none) ∧
    (id < 4096 →
      (TypeSet.insert S id).isSome ∧ (TypeSet.remove S id).isSome ∧
        (TypeSet.contains S id).isSome) := by
  constructor
  · intro h
    refine ⟨?_, ?_, ?_⟩ <;>
      simp [TypeSet.insert, TypeSet.remove, TypeSet.contains,
        show ¬ id / 64 < 64 by omega]
  · intro h
    refine ⟨?_, ?_, ?_⟩ <;>
      simp [TypeSet.insert, TypeSet.remove, TypeSet.contains,
        show id / 64 < 64 by omega]

/-- Witness for C4 at id 4096 (first out-of-range id) and id 3. -/
theorem typeset_ops_unchecked_witness :
    ((4096 : Nat) ≤ 4096 ∧ TypeSet.insert emptySet 4096 = none) ∧
      ((3 : Nat) < 4096 ∧ (TypeSet.insert emptySet 3).isSome) :=
  ⟨⟨by omega, ((typeset_ops_unchecked emptySet 4096).1 (by omega)).1⟩,
   ⟨by omega, ((typeset_ops_unchecked emptySet 3).2 (by omega)).1⟩⟩

/-!  ## Subset test (types.hpp, lines 104-109) -/

/-- `is_subset_of`: scans the 64 words and fails as soon as
`bits_[i] & ~other.bits_[i]` is non-zero. -/
def is_subset_of (A B : TypeSet) : Bool :=
  (List.finRange 64).all (fun i => A i &&& (MASK64 ^^^ B i) == 0)

theorem word_absorb_iff (a b : Nat) :
    a &&& b = a ↔ ∀ k, a.testBit k = true → b.testBit k = true := by
  constructor
  · intro h k ha
    have h2 := congrArg (fun x => x.testBit k) h
    simp only [Nat.testBit_land, ha, Bool.true_and] at h2
    exact h2
  · intro h
    refine Nat.eq_of_testBit_eq fun k => ?_
    rw [Nat.testBit_land]
    rcases ha : a.testBit k
    · simp
    · simp [h k ha]

theorem word_subset_iff {a : Nat} (b : Nat) (ha : a < 2 ^ 64) :
    (a &&& (MASK64 ^^^ b) = 0) ↔ ∀ k, a.testBit k = true → b.testBit k = true := by
  constructor
  · intro h k hak
    have hk : k < 64 := by
      by_contra hk
      rw [testBit_of_lt_64 ha (by omega)] at hak
      exact Bool.false_ne_true hak
    have h2 := congrArg (fun x => x.testBit k) h
    simp only [Nat.testBit_land, Nat.testBit_xor, Nat.zero_testBit, MASK64,
      Nat.testBit_two_pow_sub_one, hak, decide_eq_true hk, Bool.true_and,
      Bool.true_xor] at h2
    simpa using h2
  · intro h
    refine Nat.eq_of_testBit_eq fun k => ?_
    rw [Nat.testBit_land, Nat.testBit_xor, Nat.zero_testBit, MASK64,
      Nat.testBit_two_pow_sub_one]
    by_cases hk : k < 64
    · rcases hak : a.testBit k
      · simp
      · simp [h k hak, hk]
    · rw [testBit_of_lt_64 ha (by omega)]
      simp

/-- C5: for a well-formed left operand, `is_subset_of(A, B)` is true
exactly when every id whose bit is set in A has its bit set in B, and
equivalently exactly when `A & B == A` word for word (`&` being the
intersection `operator&`, here its scalar form — all paths agree by C1). -/
theorem is_subset_iff (A B : TypeSet) (hA : Wf A) :
    (is_subset_of A B = true ↔
      ∀ id : Nat, id < 4096 → membB A id = true → membB B id = true) ∧
    (is_subset_of A B = true ↔ ∀ i, interScalar A B i = A i) := by
  have hword : is_subset_of A B = true ↔
      ∀ i : Fin 64, ∀ k, (A i).testBit k = true → (B i).testBit k = true := by
    rw [is_subset_of, List.all_eq_true]
    constructor
    · intro h i k hak
      have h2 := h i (List.mem_finRange i)
      rw [beq_iff_eq] at h2
      exact (word_subset_iff (B i) (hA i)).mp h2 k hak
    · intro h i _
      rw [beq_iff_eq]
      exact (word_subset_iff (B i) (hA i)).mpr (h i)
  constructor
  · rw [hword]
    constructor
    · intro h id hid hmA
      rw [membB_eq_testBit A id hid] at hmA
      rw [membB_eq_testBit B id hid]
      exact h _ _ hmA
    · intro h i k hak
      by_cases hk : k < 64
      · have hid : 64 * i.val + k < 4096 := by omega
        have hdiv : (64 * i.val + k) / 64 = i.val := by omega
        have hmod : (64 * i.val + k) % 64 = k := by omega
        have hAi : membB A (64 * i.val + k) = true := by
          rw [membB_eq_testBit A _ hid]
          have : (⟨(64 * i.val + k) / 64, by omega⟩ : Fin 64) = i :=
          Fin.ext (show (64 * i.val + k) / 64 = i.val by omega)
          rw [this, hmod]
          exact hak
        have hBi := h _ hid hAi
        rw [membB_eq_testBit B _ hid] at hBi
        have : (⟨(64 * i.val + k) / 64, by omega⟩ : Fin 64) = i :=
          Fin.ext (show (64 * i.val + k) / 64 = i.val by omega)
        rw [this, hmod] at hBi
        exact hBi
      · rw [testBit_of_lt_64 (hA i) (by omega)] at hak
        exact absurd hak (by simp)
  · rw [hword]
    constructor
    · intro h i
      exact (word_absorb_iff (A i) (B i)).mpr (h i)
    · intro h i
      exact (word_absorb_iff (A i) (B i)).mp (h i)

/-- Witness for C5 at concrete well-formed operands. -/
theorem is_subset_iff_witness :
    Wf exSetA ∧ (is_subset_of exSetA exSetB = true ↔ ∀ i, interScalar exSetA exSetB i = exSetA i) :=
  ⟨by intro i; simp [exSetA]; omega,
   (is_subset_iff exSetA exSetB (by intro i; simp [exSetA]; omega)).2⟩

/-!  ## Cardinality (types.hpp, lines 112-118) -/

/-- The population count of one 64-bit word, as computed by
`__builtin_popcountll`: the number of set bits among positions 0..63. -/
def popcount64 (w : Nat) : Nat := (List.range 64).countP (fun k => w.testBit k)

/-- `cardinality()`: the sum of the per-word population counts over the
64 words. -/
def cardinality (S : TypeSet) : Nat := ∑ i : Fin 64, popcount64 (S i)

theorem countP_or_add_countP_and {α : Type} (p q : α → Bool) (l : List α) :
    l.countP (fun x => p x || q x) + l.countP (fun x => p x && q x) =
      l.countP p + l.countP q := by
  induction l with
  | nil => simp
  | cons x l ih =>
    rw [List.countP_cons, List.countP_cons, List.countP_cons, List.countP_cons]
    rcases hp : p x <;> rcases hq : q x <;> simp [hp, hq] <;> omega

theorem popcount64_lor_add_land (x y : Nat) :
    popcount64 (x ||| y) + popcount64 (x &&& y) = popcount64 x + popcount64 y := by
  have h1 : popcount64 (x ||| y) =
      (List.range 64).countP (fun k => x.testBit k || y.testBit k) := by
    simp only [popcount64, Nat.testBit_lor]
  have h2 : popcount64 (x &&& y) =
      (List.range 64).countP (fun k => x.testBit k && y.testBit k) := by
    simp only [popcount64, Nat.testBit_land]
  rw [h1, h2, popcount64, popcount64]
  exact countP_or_add_countP_and _ _ _

/-- C6 (inclusion–exclusion): for all TypeSets A and B,
`cardinality(A | B) + cardinality(A & B) = cardinality(A) + cardinality(B)`,
with cardinality the sum of per-word population counts over the 64 words
(the claim for the scalar forms of the operators; all paths agree by C1). -/
theorem cardinality_inclusion_exclusion (A B : TypeSet) :
    cardinality (unionScalar A B) + cardinality (interScalar A B) =
      cardinality A + cardinality B := by
  rw [cardinality, cardinality, cardinality, cardinality,
    ← Finset.sum_add_distrib, ← Finset.sum_add_distrib]
  exact Finset.sum_congr rfl fun i _ => popcount64_lor_add_land (A i) (B i)

/-!  ## The subtype lattice (src/cpp/src/core/types.cpp)

`is_subtype` runs a BFS from `a` along `supertype_graph` edges, with a
`std::vector<bool> visited(4096)` array; every id it indexes must therefore
lie below 4096, so lattice ids are modelled as `Fin 4096` (exactly the
spec's universe invariant).  The adjacency map is a function
`g : TypeId -> List TypeId`, a missing key being the empty list.  The
`visited` array is the function `TypeId -> Bool`; the growing
`std::vector` queue with its advancing `front` index is the standard
pop-front/push-back queue.  The while loop runs at most 4096 iterations
(each dequeues one element, and all enqueued elements are distinct ids),
modelled by structural fuel 4096.
-/

/-- Ids handled by the lattice: the `visited` array bounds them to 4096. -/
abbrev TypeId := Fin 4096

/-- The inner `for (TypeId super : it->second)` loop of `is_subtype`
(types.cpp, lines 49-55): scan the supertype list of the current node;
`none` means `super == b` was hit and the function returns true, otherwise
the updated visited array and the newly enqueued nodes come back. -/
def scanSupers (b : TypeId) : List TypeId → (TypeId → Bool) → List TypeId →
    Option ((TypeId → Bool) × List TypeId)
  | [], visited, acc => some (visited, acc)
  | s :: rest, visited, acc =>
    if s = b then none
    else if visited s then scanSupers b rest visited acc
    else scanSupers b rest (fun x => if x = s then true else visited x) (acc ++ [s])

/-- The `while (front < queue.size())` loop of `is_subtype`
(types.cpp, lines 44-57), with explicit fuel bounding the iteration count. -/
def bfsAux (g : TypeId → List TypeId) (b : TypeId) :
    Nat → List TypeId → (TypeId → Bool) → Bool
  | 0, _, _ => false
  | _ + 1, [], _ => false
  | fuel + 1, current :: rest, visited =>
    match scanSupers b (g current) visited [] with
    | none => true
    | some (v, ns) => bfsAux g b fuel (rest ++ ns) v

/-- `TypeLattice::is_subtype` (types.cpp, lines 34-60): true at once when
`a == b`, else BFS from `a` with `a` pre-visited. -/
def is_subtype (g : TypeId → List TypeId) (a b : TypeId) : Bool :=
  if a = b then true else bfsAux g b 4096 [a] (fun x => decide (x = a))

/-- `TypeLattice::meet` (types.cpp, lines 12-21): directly-comparable cases,
otherwise the reserved Bottom sentinel 0. -/
def meet (g : TypeId → List TypeId) (a b : TypeId) : TypeId :=
  if a = b then a
  else if is_subtype g a b then a
  else if is_subtype g b a then b
  else 0

/-- `TypeLattice::join` (types.cpp, lines 23-32): directly-comparable cases,
otherwise the reserved Top sentinel 1. -/
def join (g : TypeId → List TypeId) (a b : TypeId) : TypeId :=
  if a = b then a
  else if is_subtype g a b then b
  else if is_subtype g b a then a
  else 1

/-- One registered immediate-supertype edge: `y` is listed among the
immediate supertypes of `x`. -/
def edgeStep (g : TypeId → List TypeId) (x y : TypeId) : Prop := y ∈ g x

/-- Number of visited ids. -/
def nv (visited : TypeId → Bool) : Nat :=
  (Finset.univ.filter (fun x => visited x = true)).card

theorem scan_none_iff (b : TypeId) :
    ∀ (l : List TypeId) (v : TypeId → Bool) (acc : List TypeId),
      scanSupers b l v acc = none ↔ b ∈ l := by
  intro l
  induction l with
  | nil => intro v acc; simp [scanSupers]
  | cons s rest ih =>
    intro v acc
    rw [scanSupers]
    by_cases hs : s = b
    · subst hs; simp
    · rw [if_neg hs, List.mem_cons]
      have hbs : ¬ b = s := fun h => hs h.symm
      by_cases hv : v s = true
      · rw [if_pos hv, ih v acc]
        exact ⟨fun h => Or.inr h, fun h => h.resolve_left hbs⟩
      · rw [if_neg hv, ih _ _]
        exact ⟨fun h => Or.inr h, fun h => h.resolve_left hbs⟩

theorem scan_some_spec (b : TypeId) :
    ∀ (l : List TypeId) (v : TypeId → Bool) (acc : List TypeId)
      (v' : TypeId → Bool) (ns : List TypeId),
      scanSupers b l v acc = some (v', ns) →
      ∃ new, ns = acc ++ new ∧ new.Nodup ∧ (∀ x ∈ new, v x = false) ∧
        (∀ x ∈ new, x ∈ l) ∧ (∀ x, v' x = true ↔ (v x = true ∨ x ∈ new)) ∧
        (∀ x ∈ l, v' x = true) := by
  intro l
  induction l with
  | nil =>
    intro v acc v' ns h
    rw [scanSupers] at h
    obtain ⟨hv, hns⟩ := Prod.mk.injEq .. ▸ Option.some.inj h
    refine ⟨[], by simp [hns.symm], List.nodup_nil, by simp, by simp, ?_, by simp⟩
    intro x
    rw [← hv]
    simp
  | cons s rest ih =>
    intro v acc v' ns h
    rw [scanSupers] at h
    by_cases hs : s = b
    · rw [if_pos hs] at h; cases h
    · rw [if_neg hs] at h
      by_cases hv : v s = true
      · rw [if_pos hv] at h
        obtain ⟨new, hns, hnodup, hfresh, hsub, hiff, hcover⟩ := ih v acc v' ns h
        refine ⟨new, hns, hnodup, hfresh, fun x hx => List.mem_cons_of_mem s (hsub x hx),
          hiff, ?_⟩
        intro x hx
        rcases List.mem_cons.mp hx with rfl | hx2
        · exact (hiff x).mpr (Or.inl hv)
        · exact hcover x hx2
      · rw [if_neg hv] at h
        obtain ⟨new1, hns, hnodup, hfresh, hsub, hiff, hcover⟩ := ih _ _ v' ns h
        have hvs : v s = false := by rwa [Bool.not_eq_true] at hv
        refine ⟨s :: new1, ?_, ?_, ?_, ?_, ?_, ?_⟩
        · rw [hns, List.append_assoc, List.singleton_append]
        · rw [List.nodup_cons]
          refine ⟨fun hmem => ?_, hnodup⟩
          have := hfresh s hmem
          simp at this
        · intro x hx
          rcases List.mem_cons.mp hx with rfl | hx2
          · exact hvs
          · have := hfresh x hx2
            by_cases hxs : x = s
            · subst hxs; simp at this
            · simpa [hxs] using this
        · intro x hx
          rcases List.mem_cons.mp hx with rfl | hx2
          · exact List.mem_cons_self x rest
          · exact List.mem_cons_of_mem s (hsub x hx2)
        · intro x
          rw [hiff x]
          by_cases hxs : x = s
          · subst hxs; simp
          · simp [hxs]
        · intro x hx
          rcases List.mem_cons.mp hx with rfl | hx2
          · exact (hiff x).mpr (Or.inl (by simp))
          · exact hcover x hx2

theorem nv_le (v : TypeId → Bool) : nv v ≤ 4096 := by
  rw [nv]
  calc (Finset.univ.filter (fun x => v x = true)).card
      ≤ (Finset.univ : Finset TypeId).card := Finset.card_filter_le _ _
    _ = 4096 := by rw [Finset.card_univ, Fintype.card_fin]

theorem nv_update (v : TypeId → Bool) (new : List TypeId) (v' : TypeId → Bool)
    (hiff : ∀ x, v' x = true ↔ (v x = true ∨ x ∈ new)) (hnodup : new.Nodup)
    (hfresh : ∀ x ∈ new, v x = false) : nv v' = nv v + new.length := by
  rw [nv, nv]
  have hset : Finset.univ.filter (fun x => v' x = true) =
      Finset.univ.filter (fun x => v x = true) ∪ new.toFinset := by
    ext x
    simp [hiff x, List.mem_toFinset]
  rw [hset, Finset.card_union_of_disjoint]
  · rw [List.toFinset_card_of_nodup hnodup]
  · rw [Finset.disjoint_left]
    intro x hx hx2
    rw [Finset.mem_filter] at hx
    rw [List.mem_toFinset] at hx2
    rw [hfresh x hx2] at hx
    exact Bool.false_ne_true hx.2

theorem closed_not_reach (g : TypeId → List TypeId) (b : TypeId) (v : TypeId → Bool)
    (hclosed : ∀ z, v z = true → b ∉ g z ∧ ∀ y ∈ g z, v y = true) :
    ∀ x, v x = true → ¬ Relation.TransGen (edgeStep g) x b := by
  intro x hx ht
  obtain ⟨c, hrtg, hstep⟩ := Relation.TransGen.tail'_iff.mp ht
  have key : ∀ z, Relation.ReflTransGen (edgeStep g) x z → v z = true := by
    intro z hz
    induction hz with
    | refl => exact hx
    | tail _ h2 ih => exact (hclosed _ ih).2 _ h2
  exact (hclosed c (key c hrtg)).1 hstep

theorem bfs_sound (g : TypeId → List TypeId) (b a : TypeId) :
    ∀ (fuel : Nat) (queue : List TypeId) (visited : TypeId → Bool),
      (∀ q ∈ queue, Relation.ReflTransGen (edgeStep g) a q) →
      bfsAux g b fuel queue visited = true →
      Relation.TransGen (edgeStep g) a b := by
  intro fuel
  induction fuel with
  | zero =>
    intro queue visited _ h
    rw [bfsAux] at h
    cases h
  | succ fuel ih =>
    intro queue visited hq h
    rcases queue with _ | ⟨current, rest⟩
    · rw [bfsAux] at h
      cases h
    · rw [bfsAux] at h
      cases hscan : scanSupers b (g current) visited [] with
      | none =>
        have hb : b ∈ g current := (scan_none_iff b (g current) visited []).mp hscan
        exact Relation.TransGen.tail' (hq current (by simp)) hb
      | some pr =>
        obtain ⟨v, ns⟩ := pr
        rw [hscan] at h
        obtain ⟨new, hns, _, _, hsub, _, _⟩ := scan_some_spec b _ _ _ _ _ hscan
        have hnsnew : ns = new := by simpa using hns
        subst hnsnew
        refine ih (rest ++ ns) v ?_ h
        intro q hq2
        rcases List.mem_append.mp hq2 with h1 | h2
        · exact hq q (by simp [h1])
        · exact Relation.ReflTransGen.tail (hq current (by simp)) (hsub q h2)

theorem bfs_complete (g : TypeId → List TypeId) (b : TypeId) :
    ∀ (fuel : Nat) (queue : List TypeId) (visited : TypeId → Bool),
      queue.length + (4096 - nv visited) ≤ fuel →
      (∀ z, visited z = true →
        z ∈ queue ∨ (b ∉ g z ∧ ∀ y ∈ g z, visited y = true)) →
      (∀ q ∈ queue, visited q = true) →
      ∀ x, visited x = true → Relation.TransGen (edgeStep g) x b →
      bfsAux g b fuel queue visited = true := by
  intro fuel
  induction fuel with
  | zero =>
    intro queue visited hfuel hclosed hq x hx ht
    have hq0 : queue = [] := List.length_eq_zero.mp (by omega)
    subst hq0
    have hcl : ∀ z, visited z = true → b ∉ g z ∧ ∀ y ∈ g z, visited y = true := by
      intro z hz
      rcases hclosed z hz with h | h
      · cases h
      · exact h
    exact absurd ht (closed_not_reach g b visited hcl x hx)
  | succ fuel ih =>
    intro queue visited hfuel hclosed hq x hx ht
    rcases queue with _ | ⟨current, rest⟩
    · have hcl : ∀ z, visited z = true → b ∉ g z ∧ ∀ y ∈ g z, visited y = true := by
        intro z hz
        rcases hclosed z hz with h | h
        · cases h
        · exact h
      exact absurd ht (closed_not_reach g b visited hcl x hx)
    · rw [bfsAux]
      cases hscan : scanSupers b (g current) visited [] with
      | none => rfl
      | some pr =>
        obtain ⟨v, ns⟩ := pr
        obtain ⟨new, hns, hnodup, hfresh, hsub, hiff, hcover⟩ :=
          scan_some_spec b _ _ _ _ _ hscan
        have hnsnew : ns = new := by simpa using hns
        subst hnsnew
        have hbnotin : b ∉ g current := by
          intro hb
          have h2 := (scan_none_iff b (g current) visited []).mpr hb
          rw [hscan] at h2
          cases h2
        have hnv : nv v = nv visited + ns.length := nv_update visited ns v hiff hnodup hfresh
        have hnv1 : nv visited ≤ 4096 := nv_le visited
        have hnv2 : nv v ≤ 4096 := nv_le v
        simp only [List.length_cons] at hfuel
        refine ih (rest ++ ns) v ?_ ?_ ?_ x ((hiff x).mpr (Or.inl hx)) ht
        · rw [List.length_append]
          omega
        · intro z hz
          rcases (hiff z).mp hz with hzv | hznew
          · rcases hclosed z hzv with hzq | hcl
            · rcases List.mem_cons.mp hzq with rfl | hzr
              · exact Or.inr ⟨hbnotin, fun y hy => hcover y hy⟩
              · exact Or.inl (List.mem_append.mpr (Or.inl hzr))
            · exact Or.inr ⟨hcl.1, fun y hy => (hiff y).mpr (Or.inl (hcl.2 y hy))⟩
          · exact Or.inl (List.mem_append.mpr (Or.inr hznew))
        · intro q hq2
          rcases List.mem_append.mp hq2 with h1 | h2
          · exact (hiff q).mpr (Or.inl (hq q (by simp [h1])))
          · exact (hiff q).mpr (Or.inr h2)

/-- `is_subtype` decides exactly reachability along registered
immediate-supertype edges (the reflexive-transitive closure of
`edgeStep`). -/
theorem is_subtype_iff (g : TypeId → List TypeId) (a b : TypeId) :
    is_subtype g a b = true ↔ Relation.ReflTransGen (edgeStep g) a b := by
  rw [is_subtype]
  by_cases hab : a = b
  · subst hab
    simp only [if_pos rfl, true_iff]
    constructor
    · intro
      exact Relation.ReflTransGen.refl
    · intro
      rfl
  · rw [if_neg hab]
    constructor
    · intro h
      have hsound := bfs_sound g b a 4096 [a] (fun x => decide (x = a))
        (fun q hq => by simp at hq; subst hq; exact Relation.ReflTransGen.refl) h
      exact hsound.to_reflTransGen
    · intro h
      have ht : Relation.TransGen (edgeStep g) a b := by
        rcases Relation.reflTransGen_iff_eq_or_transGen.mp h with heq | ht
        · exact absurd heq.symm hab
        · exact ht
      have hnv1 : nv (fun x : TypeId => decide (x = a)) = 1 := by
        rw [nv]
        have hone : Finset.univ.filter (fun x : TypeId => decide (x = a) = true) = {a} := by
          ext x
          simp
        rw [hone, Finset.card_singleton]
      refine bfs_complete g b 4096 [a] (fun x => decide (x = a)) ?_ ?_ ?_ a (by simp) ht
      · rw [hnv1]
        simp
      · intro z hz
        simp at hz
        subst hz
        exact Or.inl (by simp)
      · intro q hq
        simp at hq
        subst hq
        simp

/-- C2: `is_subtype` realizes the reflexive-transitive closure of the
registered immediate-supertype edges: it is reflexive at every id and
transitive across any three ids, for every adjacency map. -/
theorem is_subtype_refl_trans (g : TypeId → List TypeId) :
    (∀ a, is_subtype g a a = true) ∧
    (∀ a b c, is_subtype g a b = true → is_subtype g b c = true →
      is_subtype g a c = true) := by
  constructor
  · intro a
    rw [is_subtype_iff]
  · intro a b c h1 h2
    rw [is_subtype_iff] at h1 h2 ⊢
    exact Relation.ReflTransGen.trans h1 h2

/-- A concrete three-edge hierarchy used by lattice witnesses:
2 → 3 → 4 (think Int → Number → Any). -/
def exGraph : TypeId → List TypeId :=
  fun x => if x = 2 then [3] else if x = 3 then [4] else []

/-- Witness for C2: transitivity applied across the concrete chain. -/
theorem is_subtype_refl_trans_witness :
    is_subtype exGraph 2 3 = true ∧ is_subtype exGraph 3 4 = true ∧
      is_subtype exGraph 2 4 = true :=
  ⟨by decide, by decide,
   (is_subtype_refl_trans exGraph).2 2 3 4 (by decide) (by decide)⟩

/-- C3: `meet` returns `a` when `a == b`, `a` when `a <: b`, `b` when
`b <: a`, else the Bottom sentinel 0; `join` is symmetric with Top sentinel
1; and whenever `a <: b` holds, `meet a b = a` and `join a b = b`. -/
theorem meet_join_spec (g : TypeId → List TypeId) (a b : TypeId) :
    meet g a b = (if a = b then a else if is_subtype g a b = true then a
      else if is_subtype g b a = true then b else (0 : TypeId)) ∧
    join g a b = (if a = b then a else if is_subtype g a b = true then b
      else if is_subtype g b a = true then a else (1 : TypeId)) ∧
    (is_subtype g a b = true → meet g a b = a ∧ join g a b = b) := by
  refine ⟨rfl, rfl, ?_⟩
  intro h
  by_cases hab : a = b
  · subst hab
    constructor <;> simp [meet, join]
  · constructor
    · rw [meet, if_neg hab, if_pos h]
    · rw [join, if_neg hab, if_pos h]

/-- Witness for C3 on the concrete chain, where 2 <: 3. -/
theorem meet_join_spec_witness :
    is_subtype exGraph 2 3 = true ∧ meet exGraph 2 3 = 2 ∧ join exGraph 2 3 = 3 :=
  ⟨by decide,
   ((meet_join_spec exGraph 2 3).2.2 (by decide)).1,
   ((meet_join_spec exGraph 2 3).2.2 (by decide)).2⟩

/-!  ## The C ABI bridge (ffi.cpp)

Handles are raw `reinterpret_cast` pointers to heap-allocated `TypeSet`s;
we model the heap as a list of slots, a handle being a slot index, a slot
holding `none` once freed.  Each wrapper dereferences its handle with no
validity check, so on a freed (or never-allocated) handle the C++ source
has no defined behaviour: the model returns `none`.  The wrappers'
signatures (`void`, `bool`, `size_t`) carry no error channel at all.
`operator|` is used through its scalar form here; by C1 every path
computes the same words.
-/

/-- The FFI heap: slot `h` holds the set owned by handle `h`, or `none`
after `typeset_free`. -/
abbrev FFIState := List (Option TypeSet)

/-- Dereference a handle: defined only while the slot is live. -/
def lookupSet (σ : FFIState) (h : Nat) : Option TypeSet :=
  match σ.get? h with
  | some (some S) => some S
  | _ => none

/-- `typeset_new` (ffi.cpp, lines 8-11): allocate a fresh empty set, return
its handle. -/
def typeset_new (σ : FFIState) : FFIState × Nat := (σ ++ [some emptySet], σ.length)

/-- `typeset_free` (ffi.cpp, lines 13-15): `delete` the pointee.  Freeing a
live handle empties its slot; a dangling or foreign handle is undefined. -/
def typeset_free (σ : FFIState) (h : Nat) : Option FFIState :=
  match lookupSet σ h with
  | some _ => some (σ.set h none)
  | none => none

/-- `typeset_insert` (ffi.cpp, lines 17-19): blind dereference, then
`TypeSet::insert`. -/
def typeset_insert (σ : FFIState) (h id : Nat) : Option FFIState := do
  let S ← lookupSet σ h
  let S' ← TypeSet.insert S id
  pure (σ.set h (some S'))

/-- `typeset_contains` (ffi.cpp, lines 21-23). -/
def typeset_contains (σ : FFIState) (h id : Nat) : Option Bool := do
  let S ← lookupSet σ h
  TypeSet.contains S id

/-- `typeset_cardinality` (ffi.cpp, lines 45-47). -/
def typeset_cardinality (σ : FFIState) (h : Nat) : Option Nat :=
  (lookupSet σ h).map cardinality

/-- `typeset_union` (ffi.cpp, lines 25-30): allocate the union of the two
pointees. -/
def typeset_union (σ : FFIState) (h1 h2 : Nat) : Option (FFIState × Nat) := do
  let S1 ← lookupSet σ h1
  let S2 ← lookupSet σ h2
  pure (σ ++ [some (unionScalar S1 S2)], σ.length)

/-- The `union_inplace` fold inside `typeset_union_many`
(ffi.cpp, lines 98-100). -/
def unionFold (σ : FFIState) (rest : List Nat) (S0 : TypeSet) : Option TypeSet :=
  rest.foldlM (fun acc hi => do
    let S ← lookupSet σ hi
    pure (unionInplaceScalar acc S)) S0

/-- `typeset_union_many` (ffi.cpp, lines 93-103): empty input yields a
fresh empty set, otherwise a copy of the first pointee folded with
`union_inplace` over the rest. -/
def typeset_union_many (σ : FFIState) (hs : List Nat) : Option (FFIState × Nat) :=
  match hs with
  | [] => some (typeset_new σ)
  | h0 :: rest => do
    let S0 ← lookupSet σ h0
    let Sres ← unionFold σ rest S0
    pure (σ ++ [some Sres], σ.length)

/-- The `intersect_inplace` fold inside `typeset_intersection_many`
(ffi.cpp, lines 110-112). -/
def interFold (σ : FFIState) (rest : List Nat) (S0 : TypeSet) : Option TypeSet :=
  rest.foldlM (fun acc hi => do
    let S ← lookupSet σ hi
    pure (interInplaceScalar acc S)) S0

/-- `typeset_intersection_many` (ffi.cpp, lines 105-115). -/
def typeset_intersection_many (σ : FFIState) (hs : List Nat) : Option (FFIState × Nat) :=
  match hs with
  | [] => some (typeset_new σ)
  | h0 :: rest => do
    let S0 ← lookupSet σ h0
    let Sres ← interFold σ rest S0
    pure (σ ++ [some Sres], σ.length)

/-- C8 (the failing behaviour, evaluated): allocate a set, free its handle,
then use the handle again.  Every post-free operation evaluates to `none` —
the C++ wrappers dereference the freed pointer with no validity check and
no error channel, so no `InvalidHandle` is ever reported. -/
theorem use_after_free_undefined :
    typeset_new [] = ([some emptySet], 0) ∧
    typeset_free [some emptySet] 0 = some [none] ∧
    typeset_insert [none] 0 0 = none ∧
    typeset_contains [none] 0 0 = none ∧
    typeset_cardinality [none] 0 = none ∧
    typeset_union [none] 0 0 = none :=
  ⟨rfl, rfl, rfl, rfl, rfl, rfl⟩

/-- C10: with an empty handle list, `typeset_intersection_many` silently
returns a fresh all-zero set (the code's resolution of the spec's open
convention), not an error. -/
theorem intersection_many_empty (σ : FFIState) :
    typeset_intersection_many σ [] = some (σ ++ [some emptySet], σ.length) ∧
      (∀ i : Fin 64, emptySet i = 0) :=
  ⟨rfl, fun _ => rfl⟩

theorem unionFold_eq_foldl (σ : FFIState) :
    ∀ (rest : List Nat) (S0 : TypeSet), (∀ h ∈ rest, (lookupSet σ h).isSome) →
      unionFold σ rest S0 = some (rest.foldl
        (fun acc hi => unionInplaceScalar acc ((lookupSet σ hi).getD emptySet)) S0) := by
  intro rest
  induction rest with
  | nil => intro S0 _; rfl
  | cons hi rest ih =>
    intro S0 hlive
    have h1 : (lookupSet σ hi).isSome := hlive hi (by simp)
    obtain ⟨S, hS⟩ := Option.isSome_iff_exists.mp h1
    rw [unionFold, List.foldlM_cons, hS]
    have h2 := ih (unionInplaceScalar S0 S) (fun h hh => hlive h (by simp [hh]))
    rw [unionFold] at h2
    rw [List.foldl_cons, hS, Option.getD_some]
    simpa using h2

theorem membB_unionInplaceScalar (A B : TypeSet) (x : Nat) :
    membB (unionInplaceScalar A B) x = (membB A x || membB B x) := by
  by_cases hx : x < 4096
  · rw [membB_eq_testBit _ _ hx, membB_eq_testBit _ _ hx, membB_eq_testBit _ _ hx]
    rw [unionInplaceScalar, Nat.testBit_lor]
  · rw [membB_oob _ _ (by omega), membB_oob _ _ (by omega), membB_oob _ _ (by omega)]
    rfl

theorem membB_unionFoldl (σ : FFIState) :
    ∀ (rest : List Nat) (S0 : TypeSet) (x : Nat),
      membB (rest.foldl
        (fun acc hi => unionInplaceScalar acc ((lookupSet σ hi).getD emptySet)) S0) x =
      (membB S0 x || rest.any (fun hi => membB ((lookupSet σ hi).getD emptySet) x)) := by
  intro rest
  induction rest with
  | nil => intro S0 x; simp
  | cons hi rest ih =>
    intro S0 x
    rw [List.foldl_cons, ih, membB_unionInplaceScalar, List.any_cons, Bool.or_assoc]

/-- C9: `typeset_union_many` on an empty list returns a fresh empty set;
on `n >= 1` live handles it allocates one new set equal to the
`union_inplace` fold over the rest seeded by a copy of the first pointee,
whose members are exactly the ids present in at least one input, while
every pre-existing heap slot is left unchanged. -/
theorem union_many_spec :
    (∀ σ : FFIState, typeset_union_many σ [] = some (σ ++ [some emptySet], σ.length)) ∧
    (∀ (σ : FFIState) (h0 : Nat) (rest : List Nat) (S0 : TypeSet),
      lookupSet σ h0 = some S0 → (∀ h ∈ rest, (lookupSet σ h).isSome) →
      ∃ Sres, typeset_union_many σ (h0 :: rest) = some (σ ++ [some Sres], σ.length) ∧
        Sres = rest.foldl
          (fun acc hi => unionInplaceScalar acc ((lookupSet σ hi).getD emptySet)) S0 ∧
        (∀ x, membB Sres x =
          (h0 :: rest).any (fun hi => membB ((lookupSet σ hi).getD emptySet) x)) ∧
        (∀ j, j < σ.length → (σ ++ [some Sres]).get? j = σ.get? j)) := by
  constructor
  · intro σ
    rfl
  · intro σ h0 rest S0 hS0 hlive
    refine ⟨rest.foldl
      (fun acc hi => unionInplaceScalar acc ((lookupSet σ hi).getD emptySet)) S0,
      ?_, rfl, ?_, ?_⟩
    · simp only [typeset_union_many, hS0, Option.bind_eq_bind, Option.some_bind,
        unionFold_eq_foldl σ rest S0 hlive]
      rfl
    · intro x
      rw [membB_unionFoldl, List.any_cons, hS0, Option.getD_some]
    · intro j hj
      exact List.get?_append hj

/-- A concrete two-set heap for ABI witnesses. -/
def exState : FFIState := [some exSetA, some exSetB]

/-- Witness for C9 on a two-set heap with handles 0 and 1. -/
theorem union_many_spec_witness :
    lookupSet exState 0 = some exSetA ∧ (∀ h ∈ [1], (lookupSet exState h).isSome) ∧
      (∃ Sres, typeset_union_many exState (0 :: [1]) =
          some (exState ++ [some Sres], exState.length) ∧
        Sres = [1].foldl
          (fun acc hi => unionInplaceScalar acc ((lookupSet exState hi).getD emptySet)) exSetA ∧
        (∀ x, membB Sres x =
          (0 :: [1]).any (fun hi => membB ((lookupSet exState hi).getD emptySet) x)) ∧
        (∀ j, j < exState.length → (exState ++ [some Sres]).get? j = exState.get? j)) :=
  ⟨rfl, by decide, union_many_spec.2 exState 0 [1] exSetA rfl (by decide)⟩

/-!  ## to_array / from_array (ffi.cpp, lines 61-79) -/

/-- The scan loop of `typeset_to_array` (ffi.cpp, lines 72-76):
`for (i = 0; i < 4096 && written < capacity; ++i) if contains(i) write i`.
The loop counter is `i`, the remaining iterations are the structural fuel
(4096 at entry), and the written buffer is the accumulator. -/
def toArrayGo (S : TypeSet) (cap : Nat) : Nat → Nat → List Nat → List Nat
  | _, 0, acc => acc
  | i, fuel + 1, acc =>
    if acc.length < cap then
      if membB S i then toArrayGo S cap (i + 1) fuel (acc ++ [i])
      else toArrayGo S cap (i + 1) fuel acc
    else acc

/-- `typeset_to_array` (ffi.cpp, lines 67-79): the written buffer contents,
in order; its length is the returned count. -/
def typeset_to_array (S : TypeSet) (cap : Nat) : List Nat := toArrayGo S cap 0 4096 []

/-- The ids of the set in ascending order (what an unbounded scan writes). -/
def memberList (S : TypeSet) : List Nat := (List.range 4096).filter (fun id => membB S id)

/-- `insert_many` (types.hpp, lines 128-132): repeated `insert`; one
undefined insert makes the whole run undefined. -/
def insert_many (S : TypeSet) (ids : List Nat) : Option TypeSet :=
  ids.foldlM TypeSet.insert S

/-- `typeset_from_array` (ffi.cpp, lines 61-65): a fresh set filled by
`insert_many`. -/
def typeset_from_array (ids : List Nat) : Option TypeSet := insert_many emptySet ids

theorem toArrayGo_spec (S : TypeSet) (cap : Nat) :
    ∀ (fuel i : Nat) (acc : List Nat), acc.length ≤ cap →
      toArrayGo S cap i fuel acc =
        acc ++ ((List.range' i fuel).filter
          (fun id => membB S id)).take (cap - acc.length) := by
  intro fuel
  induction fuel with
  | zero => intro i acc _; simp [toArrayGo]
  | succ fuel ih =>
    intro i acc hlen
    rw [toArrayGo, List.range'_succ, List.filter_cons]
    by_cases hcap : acc.length < cap
    · rw [if_pos hcap]
      by_cases hm : membB S i
      · rw [if_pos hm, if_pos hm, ih (i + 1) (acc ++ [i]) (by simp; omega)]
        have htake : cap - acc.length = (cap - (acc ++ [i]).length) + 1 := by
          simp
          omega
        rw [htake, List.take_succ_cons, List.append_assoc, List.singleton_append]
      · rw [if_neg hm, if_neg hm, ih (i + 1) acc hlen]
    · rw [if_neg hcap]
      have h0 : cap - acc.length = 0 := by omega
      rw [h0, List.take_zero, List.append_nil]

theorem typeset_to_array_eq (S : TypeSet) (cap : Nat) :
    typeset_to_array S cap = (memberList S).take cap := by
  rw [typeset_to_array, toArrayGo_spec S cap 4096 0 [] (by simp), memberList,
    List.range_eq_range']
  simp

theorem countP_range_mul (S : TypeSet) :
    ∀ n, n ≤ 64 → (List.range (64 * n)).countP (fun id => membB S id) =
      ∑ j ∈ Finset.range n, popcount64 (S ⟨j % 64, Nat.mod_lt j (by omega)⟩) := by
  intro n
  induction n with
  | zero => intro _; simp
  | succ n ih =>
    intro hn
    rw [show 64 * (n + 1) = 64 * n + 64 by ring, List.range_add, List.countP_append,
      ih (by omega), Finset.sum_range_succ]
    congr 1
    rw [List.countP_map, popcount64]
    apply List.countP_congr
    intro k hk
    rw [List.mem_range] at hk
    have hid : 64 * n + k < 4096 := by omega
    have hmem : membB S (64 * n + k) = (S ⟨n % 64, Nat.mod_lt n (by omega)⟩).testBit k := by
      rw [membB_eq_testBit S _ hid]
      have e1 : (⟨(64 * n + k) / 64, by omega⟩ : Fin 64) =
          (⟨n % 64, Nat.mod_lt n (by omega)⟩ : Fin 64) :=
        Fin.ext (show (64 * n + k) / 64 = n % 64 by omega)
      have e2 : (64 * n + k) % 64 = k := by omega
      rw [e1, e2]
    simp only [Function.comp_apply, hmem]

theorem cardinality_eq_length_memberList (S : TypeSet) :
    cardinality S = (memberList S).length := by
  rw [memberList, ← List.countP_eq_length_filter,
    show (4096 : Nat) = 64 * 64 by norm_num, countP_range_mul S 64 (le_refl 64),
    cardinality, ← Fin.sum_univ_eq_sum_range
      (fun j => popcount64 (S ⟨j % 64, Nat.mod_lt j (by omega)⟩)) 64]
  apply Finset.sum_congr rfl
  intro i _
  congr 1
  exact congrArg S (Fin.ext (show i.val = i.val % 64 by omega))

theorem insert_membB (S S' : TypeSet) (id : Nat) (h : TypeSet.insert S id = some S') :
    id < 4096 ∧ ∀ x, membB S' x = (membB S x || decide (x = id)) := by
  rw [TypeSet.insert] at h
  by_cases hid : id / 64 < 64
  · rw [dif_pos hid] at h
    have hid4 : id < 4096 := by omega
    have hfun := Option.some.inj h
    have hS' : ∀ i : Fin 64, S' i =
        if i = (⟨id / 64, hid⟩ : Fin 64) then S i ||| (1 <<< (id % 64)) else S i := by
      intro i
      rw [← hfun]
    refine ⟨hid4, ?_⟩
    intro x
    by_cases hx : x < 4096
    · rw [membB_eq_testBit _ _ hx, membB_eq_testBit _ _ hx, hS']
      by_cases hw : (⟨x / 64, by omega⟩ : Fin 64) = (⟨id / 64, hid⟩ : Fin 64)
      · rw [if_pos hw, Nat.testBit_lor, Nat.one_shiftLeft, Nat.testBit_two_pow]
        have hww : x / 64 = id / 64 := by
          have := congrArg Fin.val hw
          simpa using this
        have : (id % 64 = x % 64) ↔ (x = id) := by omega
        rw [decide_eq_decide.mpr this]
      · rw [if_neg hw]
        have hxid : decide (x = id) = false := by
          refine decide_eq_false fun he => hw ?_
          subst he
          rfl
        rw [hxid, Bool.or_false]
    · rw [membB_oob _ _ (by omega), membB_oob _ _ (by omega)]
      have : decide (x = id) = false := decide_eq_false (by omega)
      rw [this, Bool.or_false]
  · rw [dif_neg hid] at h
    cases h

theorem membB_emptySet (x : Nat) : membB emptySet x = false := by
  by_cases hx : x < 4096
  · rw [membB_eq_testBit _ _ hx]
    exact Nat.zero_testBit _
  · exact membB_oob _ _ (by omega)

theorem insert_many_membB :
    ∀ (ids : List Nat) (S : TypeSet), (∀ id ∈ ids, id < 4096) →
      ∃ S', insert_many S ids = some S' ∧
        ∀ x, membB S' x = (membB S x || decide (x ∈ ids)) := by
  intro ids
  induction ids with
  | nil =>
    intro S _
    exact ⟨S, rfl, fun x => by simp⟩
  | cons id rest ih =>
    intro S hids
    have hid : id < 4096 := hids id (by simp)
    have hdiv : id / 64 < 64 := by omega
    have hins : TypeSet.insert S id = some (fun i =>
        if i = (⟨id / 64, hdiv⟩ : Fin 64) then S i ||| (1 <<< (id % 64)) else S i) := by
      rw [TypeSet.insert, dif_pos hdiv]
    obtain ⟨S', hfold, hmem⟩ := ih _ (fun i hi => hids i (by simp [hi]))
    refine ⟨S', ?_, ?_⟩
    · rw [insert_many, List.foldlM_cons, hins]
      simpa [insert_many] using hfold
    · intro x
      rw [hmem x, (insert_membB S _ id hins).2 x]
      have hdec : decide (x ∈ id :: rest) = (decide (x = id) || decide (x ∈ rest)) := by
        simp [List.mem_cons]
      rw [hdec, Bool.or_assoc]

/-- C7: `typeset_to_array` writes exactly `min(cardinality, capacity)` ids,
in ascending order, and those are the smallest members (the prefix of the
full ascending member list); and a `typeset_from_array` /
`typeset_to_array` round trip with sufficient capacity yields exactly the
distinct input ids in ascending order. -/
theorem to_array_from_array_spec :
    (∀ (S : TypeSet) (cap : Nat),
      (typeset_to_array S cap).length = min (cardinality S) cap ∧
      (typeset_to_array S cap).Pairwise (· < ·) ∧
      typeset_to_array S cap = (memberList S).take cap) ∧
    (∀ (ids : List Nat) (S : TypeSet), (∀ id ∈ ids, id < 4096) →
      typeset_from_array ids = some S →
      ∀ cap, cardinality S ≤ cap →
        (typeset_to_array S cap).Pairwise (· < ·) ∧
        (typeset_to_array S cap).Nodup ∧
        (∀ x, x ∈ typeset_to_array S cap ↔ x ∈ ids)) := by
  have hsorted : ∀ (S : TypeSet) (cap : Nat), (typeset_to_array S cap).Pairwise (· < ·) := by
    intro S cap
    rw [typeset_to_array_eq]
    exact List.Pairwise.sublist
      ((List.take_sublist _ _).trans (List.filter_sublist _))
      (List.pairwise_lt_range 4096)
  constructor
  · intro S cap
    refine ⟨?_, hsorted S cap, typeset_to_array_eq S cap⟩
    rw [typeset_to_array_eq, List.length_take, ← cardinality_eq_length_memberList]
    exact min_comm cap (cardinality S)
  · intro ids S hids hfrom cap hcap
    obtain ⟨S2, hfrom2, hmem⟩ := insert_many_membB ids emptySet hids
    rw [typeset_from_array] at hfrom
    rw [hfrom] at hfrom2
    obtain rfl : S = S2 := Option.some.inj hfrom2
    have hmem2 : ∀ x, membB S x = decide (x ∈ ids) := fun x => by
      rw [hmem x, membB_emptySet, Bool.false_or]
    have hfull : typeset_to_array S cap = memberList S := by
      rw [typeset_to_array_eq]
      refine List.take_of_length_le ?_
      rw [← cardinality_eq_length_memberList]
      exact hcap
    refine ⟨hsorted S cap, ?_, ?_⟩
    · exact List.Pairwise.imp (fun h => Nat.ne_of_lt h) (hsorted S cap)
    · intro x
      rw [hfull, memberList, List.mem_filter, hmem2, List.mem_range]
      constructor
      · rintro ⟨_, h⟩
        exact of_decide_eq_true h
      · intro h
        exact ⟨hids x h, decide_eq_true h⟩

/-- The set produced by inserting 3, 7 and 9 into a fresh set: word 0 holds
bits 3, 7, 9, i.e. 8 + 128 + 512 = 648. -/
def exS379 : TypeSet := fun i => if i.val = 0 then 648 else 0

/-- Witness for C7: the round trip on [3, 7, 9] with capacity 3. -/
theorem to_array_from_array_witness :
    (∀ id ∈ [3, 7, 9], (id : Nat) < 4096) ∧
      typeset_from_array [3, 7, 9] = some exS379 ∧ cardinality exS379 ≤ 3 ∧
      (∀ x, x ∈ typeset_to_array exS379 3 ↔ x ∈ [3, 7, 9]) :=
  ⟨by decide, congrArg some (by decide), by decide,
   (to_array_from_array_spec.2 [3, 7, 9] exS379 (by decide)
     (congrArg some (by decide)) 3 (by decide)).2.2⟩
